import Mathlib

/-!
Verification of the markov-chain model of `rusty_markov`.

The Rust `HashMap`s are embedded as association lists (the list order stands
for the map's unspecified enumeration order), random sources are embedded as
explicit streams `Nat → Nat` (`gen_range(0, n)` at stream position `i` is
`rng i % n`), and every operation of `src/memory.rs` and `src/words.rs` is
translated function by function.
-/

/-- `SentencePart` from `src/words.rs`: a boundary marker or a literal word. -/
inductive SentencePart where
  | startOfLine : SentencePart
  | endOfLine : SentencePart
  | word : String → SentencePart
deriving DecidableEq, Repr

/-- `SentencePart::is_word` from `src/words.rs`. -/
def SentencePart.is_word : SentencePart → Bool
  | .word _ => true
  | _ => false

/-- `SentencePartPair` from `src/words.rs`: the two most recent parts. -/
structure SentencePartPair where
  prev : SentencePart
  prev_prev : SentencePart
deriving DecidableEq, Repr

/-- `Default for SentencePartPair`: `(StartOfLine, StartOfLine)`. -/
def SentencePartPair.start : SentencePartPair :=
  ⟨SentencePart.startOfLine, SentencePart.startOfLine⟩

/-- `SentencePartPair::with_previous_word`: the pair `(Word s, StartOfLine)`. -/
def SentencePartPair.with_previous_word (s : String) : SentencePartPair :=
  ⟨SentencePart.word s, SentencePart.startOfLine⟩

/-- `SentencePartPair::is_valid_sentence`: the `prev` slot holds a `Word`. -/
def SentencePartPair.is_valid_sentence (p : SentencePartPair) : Bool :=
  p.prev.is_word

/-- `SentencePartPair::shift`: `(prev, prev_prev)` becomes `(Word new, prev)`. -/
def SentencePartPair.shift (p : SentencePartPair) (new_prev : String) : SentencePartPair :=
  ⟨SentencePart.word new_prev, p.prev⟩

/-- `NextPartList` from `src/words.rs`: continuation counts, embedded as an
association list standing for `HashMap<SentencePart, usize>`. -/
structure NextPartList where
  parts : List (SentencePart × Nat)
deriving DecidableEq, Repr

/-- The `entry(part).or_insert(0) += 1` update of `NextPartList::count_part`
on the underlying association list. -/
def bumpAssoc : List (SentencePart × Nat) → SentencePart → List (SentencePart × Nat)
  | [], p => [(p, 1)]
  | (q, c) :: rest, p =>
    if q = p then (q, c + 1) :: rest else (q, c) :: bumpAssoc rest p

/-- `NextPartList::count_part` from `src/words.rs`. -/
def NextPartList.count_part (l : NextPartList) (p : SentencePart) : NextPartList :=
  ⟨bumpAssoc l.parts p⟩

/-- The `total` computed inside `NextPartList::get`: sum of all counts. -/
def NextPartList.total (l : NextPartList) : Nat :=
  (l.parts.map Prod.snd).sum

/-- The scan loop of `NextPartList::get`: walk the entries, returning the first
entry whose count exceeds the remaining index, subtracting otherwise. -/
def scanSelect : List (SentencePart × Nat) → Nat → Option SentencePart
  | [], _ => none
  | (w, c) :: rest, idx => if idx < c then some w else scanSelect rest (idx - c)

/-- `NextPartList::get` from `src/words.rs`, derandomized: `idx` is the value
drawn by `rng.gen_range(0, total)`. Returns `none` on an empty table. -/
def NextPartList.get (l : NextPartList) (idx : Nat) : Option SentencePart :=
  if l.parts.isEmpty then none else scanSelect l.parts idx

/-- `Memory` from `src/memory.rs`, the `HashMap<SentencePartPair, NextPartList>`
embedded as an association list. -/
structure Memory where
  words : List (SentencePartPair × NextPartList)
deriving DecidableEq, Repr

/-- `Default for Memory`: the empty model. -/
def Memory.default : Memory := ⟨[]⟩

/-- `HashMap::get` on the model's association list. -/
def Memory.find (m : Memory) (pp : SentencePartPair) : Option NextPartList :=
  match m.words.find? (fun e => e.1 = pp) with
  | some e => some e.2
  | none => none

/-- The `entry(pair).or_insert_with(Default::default)` followed by
`count_part(tok)` used by `Memory::learn`. -/
def bumpMem : List (SentencePartPair × NextPartList) → SentencePartPair → SentencePart →
    List (SentencePartPair × NextPartList)
  | [], pr, tok => [(pr, NextPartList.count_part ⟨[]⟩ tok)]
  | (q, tbl) :: rest, pr, tok =>
    if q = pr then (q, tbl.count_part tok) :: rest else (q, tbl) :: bumpMem rest pr tok

/-- Rust `char::is_ascii_whitespace`: space, tab, newline, form feed,
carriage return. -/
def isAsciiWhitespaceChar (c : Char) : Bool :=
  c.toNat = 0x20 || c.toNat = 0x09 || c.toNat = 0x0A || c.toNat = 0x0C || c.toNat = 0x0D

/-- Splitting into maximal runs of non-ASCII-whitespace characters, the
accumulator holding the current run reversed. -/
def splitWordsAux : List Char → List Char → List String
  | [], acc => if acc.isEmpty then [] else [⟨acc.reverse⟩]
  | c :: cs, acc =>
    if isAsciiWhitespaceChar c then
      if acc.isEmpty then splitWordsAux cs [] else (⟨acc.reverse⟩ : String) :: splitWordsAux cs []
    else splitWordsAux cs (c :: acc)

/-- Rust `str::split_ascii_whitespace`. -/
def splitAsciiWhitespace (s : String) : List String :=
  splitWordsAux s.data []

/-- The Unicode `White_Space` property, as used by Rust `str::trim`. -/
def isUnicodeWhitespace (c : Char) : Bool :=
  c.toNat = 0x09 || c.toNat = 0x0A || c.toNat = 0x0B || c.toNat = 0x0C || c.toNat = 0x0D ||
  c.toNat = 0x20 || c.toNat = 0x85 || c.toNat = 0xA0 || c.toNat = 0x1680 ||
  (0x2000 ≤ c.toNat && c.toNat ≤ 0x200A) ||
  c.toNat = 0x2028 || c.toNat = 0x2029 || c.toNat = 0x202F || c.toNat = 0x205F ||
  c.toNat = 0x3000

/-- Rust `str::trim`: strip Unicode whitespace from both ends. -/
def rustTrim (s : String) : String :=
  ⟨((s.data.dropWhile isUnicodeWhitespace).reverse.dropWhile isUnicodeWhitespace).reverse⟩

/-- The word loop of `Memory::learn` followed by its final `EndOfLine` record:
for each part, parts that trim to empty are skipped (`continue`); otherwise if
the running pair is valid the part is counted under it, and the pair shifts. -/
def learnWords (m : Memory) (pp : SentencePartPair) : List String → Memory
  | [] =>
    if pp.is_valid_sentence then ⟨bumpMem m.words pp SentencePart.endOfLine⟩ else m
  | w :: ws =>
    if (rustTrim w).isEmpty then learnWords m pp ws
    else
      learnWords
        (if pp.is_valid_sentence then ⟨bumpMem m.words pp (SentencePart.word w)⟩ else m)
        (pp.shift w) ws

/-- `Memory::learn` from `src/memory.rs`. -/
def Memory.learn (m : Memory) (line : String) : Memory :=
  learnWords m SentencePartPair.start (splitAsciiWhitespace line)

/-- Rust `char::to_ascii_lowercase`. -/
def asciiLowerChar (c : Char) : Char :=
  if 0x41 ≤ c.toNat ∧ c.toNat ≤ 0x5A then Char.ofNat (c.toNat + 32) else c

/-- Rust `str::to_ascii_lowercase`. -/
def asciiLowercase (s : String) : String :=
  ⟨s.data.map asciiLowerChar⟩

/-- The break-chance formula of `Memory::speak`: `(len / 3) * 10`. -/
def chanceToBreak (len : Nat) : Nat := (len / 3) * 10

/-- The `while let` loop of `Memory::speak`, derandomized over the stream
`rng` read at successive positions starting at `pos`: one draw for the sample
(`gen_range(0, total)` is `rng pos % total`) and, when a word was produced, one
draw for the break chance (`gen_range(0, 100)` is `rng (pos+1) % 100`).
Returns the list of produced words. Lean accepts the recursion because once
`len` reaches 29 the break draw can no longer fail, which is the termination
fact behind claim C4. -/
def speakLoop (m : Memory) (rng : Nat → Nat) (pos : Nat) (pp : SentencePartPair)
    (len : Nat) (acc : List String) : List String :=
  match m.find pp with
  | none => acc
  | some tbl =>
    match tbl.get (rng pos % tbl.total) with
    | none => acc
    | some SentencePart.startOfLine => acc
    | some SentencePart.endOfLine => acc
    | some (SentencePart.word w) =>
      if h : rng (pos + 1) % 100 < chanceToBreak (len + 1) then acc ++ [w]
      else speakLoop m rng (pos + 2) (pp.shift w) (len + 1) (acc ++ [w])
termination_by 30 - len
decreasing_by
  simp only [chanceToBreak] at h
  omega

/-- The words produced by `Memory::speak` after the starting word. -/
def speakProduced (m : Memory) (rng : Nat → Nat) (w : String) : List String :=
  speakLoop m rng 0 (SentencePartPair.with_previous_word (asciiLowercase w)) 0 []

/-- `Memory::speak` from `src/memory.rs`, derandomized over the stream `rng`. -/
def Memory.speak (m : Memory) (rng : Nat → Nat) (w : String) : Option String :=
  let ws := speakProduced m rng w
  if ws.isEmpty then none
  else some (asciiLowercase w ++ " " ++ String.intercalate " " ws)

/-- Total count recorded for token `tok` in an association-list table. -/
def tblCount (l : List (SentencePart × Nat)) (tok : SentencePart) : Nat :=
  (l.map (fun q => if q.1 = tok then q.2 else 0)).sum

/-- Total count recorded for `(pr, tok)` across the whole model. -/
def memCount (m : Memory) (pr : SentencePartPair) (tok : SentencePart) : Nat :=
  (m.words.map (fun e => if e.1 = pr then tblCount e.2.parts tok else 0)).sum

/-- The context keys present in the model. -/
def keysOf (m : Memory) : List SentencePartPair :=
  m.words.map Prod.fst

/-- Occurrences of one element in a list, via an explicit decidable test. -/
def countOcc {α : Type} [DecidableEq α] (l : List α) (a : α) : Nat :=
  l.countP (fun e => decide (e = a))

/-- The transitions claim C1 ascribes to a word list `w1 :: ws`: the running
context is carried as the explicit pair `(prev, prevPrev)`; every word maps
the current context to itself, and the final context maps to `EndOfLine`. -/
def claimedList (prev prevPrev : SentencePart) :
    List String → List (SentencePartPair × SentencePart)
  | [] => [(⟨prev, prevPrev⟩, SentencePart.endOfLine)]
  | w :: ws =>
    (⟨prev, prevPrev⟩, SentencePart.word w) :: claimedList (SentencePart.word w) prev ws

/-- Claim C1's transition list for the words of a line: empty for no words;
otherwise the first word only seeds the context `(Word w1, StartOfLine)`. -/
def claimedTransitions : List String → List (SentencePartPair × SentencePart)
  | [] => []
  | w1 :: rest => claimedList (SentencePart.word w1) SentencePart.startOfLine rest

/-- The transitions `learnWords` actually records from a given running pair,
mirroring its recursion (including the skip of parts that trim to empty). -/
def effTransitions (pp : SentencePartPair) :
    List String → List (SentencePartPair × SentencePart)
  | [] => if pp.is_valid_sentence then [(pp, SentencePart.endOfLine)] else []
  | w :: ws =>
    if (rustTrim w).isEmpty then effTransitions pp ws
    else
      (if pp.is_valid_sentence then [(pp, SentencePart.word w)] else []) ++
        effTransitions (pp.shift w) ws

/-- Decidable form of the count invariant: every stored count is at least 1. -/
def allCountsPos (m : Memory) : Bool :=
  m.words.all (fun e => e.2.parts.all (fun q => 1 ≤ q.2))

/-- Decidable form of the well-formedness invariant: every context key has a
`Word` in its `prev` slot, and no stored continuation is `StartOfLine`. -/
def wellFormed (m : Memory) : Bool :=
  m.words.all (fun e =>
    e.1.prev.is_word &&
      e.2.parts.all (fun q => decide (q.1 ≠ SentencePart.startOfLine)))

/-- Whether `Word s` occurs in some context key of the model. -/
def wordInContexts (m : Memory) (s : String) : Bool :=
  m.words.any (fun e =>
    decide (e.1.prev = SentencePart.word s) || decide (e.1.prev_prev = SentencePart.word s))

/-- Modelled from the spec: the persistence codec. The actual encoding is
produced by the external `bincode` and `zip` crates, whose code is not part of
this repository; the spec describes it as a length-prefixed, deterministic
binary record format written field by field, stored as the sole entry of an
archive read back transparently. Tokens encode as a tag followed by the word's
length-prefixed character codes. -/
def encPart : SentencePart → List Nat
  | SentencePart.startOfLine => [0]
  | SentencePart.endOfLine => [1]
  | SentencePart.word s => 2 :: s.data.length :: s.data.map Char.toNat

/-- Modelled from the spec: decode one token, returning the remaining stream. -/
def decPart : List Nat → Option (SentencePart × List Nat)
  | 0 :: rest => some (SentencePart.startOfLine, rest)
  | 1 :: rest => some (SentencePart.endOfLine, rest)
  | 2 :: n :: rest =>
    if n ≤ rest.length then
      some (SentencePart.word ⟨(rest.take n).map Char.ofNat⟩, rest.drop n)
    else none
  | _ => none

/-- Modelled from the spec: a context encodes as its two tokens in order. -/
def encPair (pp : SentencePartPair) : List Nat :=
  encPart pp.prev ++ encPart pp.prev_prev

/-- Modelled from the spec: decode one context. -/
def decPair (s : List Nat) : Option (SentencePartPair × List Nat) :=
  match decPart s with
  | none => none
  | some (p1, r1) =>
    match decPart r1 with
    | none => none
    | some (p2, r2) => some (⟨p1, p2⟩, r2)

/-- Modelled from the spec: a table encodes as a length prefix followed by
each entry's token and count. -/
def encTable (l : NextPartList) : List Nat :=
  l.parts.length :: (l.parts.map (fun q => encPart q.1 ++ [q.2])).flatten

/-- Modelled from the spec: decode `n` table entries. -/
def decTableEntries : Nat → List Nat → Option (List (SentencePart × Nat) × List Nat)
  | 0, rest => some ([], rest)
  | n + 1, s =>
    match decPart s with
    | none => none
    | some (p, r1) =>
      match r1 with
      | [] => none
      | c :: r2 =>
        match decTableEntries n r2 with
        | none => none
        | some (entries, r3) => some ((p, c) :: entries, r3)

/-- Modelled from the spec: decode one table. -/
def decTable (s : List Nat) : Option (NextPartList × List Nat) :=
  match s with
  | [] => none
  | n :: rest =>
    match decTableEntries n rest with
    | none => none
    | some (entries, r) => some (⟨entries⟩, r)

/-- Modelled from the spec: the model encodes as a length prefix followed by
each entry's context and table. -/
def encMemory (m : Memory) : List Nat :=
  m.words.length :: (m.words.map (fun e => encPair e.1 ++ encTable e.2)).flatten

/-- Modelled from the spec: decode `n` model entries. -/
def decMemEntries : Nat → List Nat → Option (List (SentencePartPair × NextPartList) × List Nat)
  | 0, rest => some ([], rest)
  | n + 1, s =>
    match decPair s with
    | none => none
    | some (pr, r1) =>
      match decTable r1 with
      | none => none
      | some (tbl, r2) =>
        match decMemEntries n r2 with
        | none => none
        | some (entries, r3) => some ((pr, tbl) :: entries, r3)

/-- Modelled from the spec: decode a whole model from the archive's bytes. -/
def decMemory (s : List Nat) : Option Memory :=
  match s with
  | [] => none
  | n :: rest =>
    match decMemEntries n rest with
    | none => none
    | some (entries, _) => some ⟨entries⟩

theorem countOcc_nil {α : Type} [DecidableEq α] (a : α) : countOcc [] a = 0 := rfl

theorem countOcc_cons {α : Type} [DecidableEq α] (x : α) (l : List α) (a : α) :
    countOcc (x :: l) a = countOcc l a + if x = a then 1 else 0 := by
  simp [countOcc, List.countP_cons]

theorem countOcc_append {α : Type} [DecidableEq α] (l1 l2 : List α) (a : α) :
    countOcc (l1 ++ l2) a = countOcc l1 a + countOcc l2 a := by
  simp [countOcc, List.countP_append]

theorem tblCount_nil (tok : SentencePart) : tblCount [] tok = 0 := rfl

theorem tblCount_cons (q : SentencePart × Nat) (l : List (SentencePart × Nat))
    (tok : SentencePart) :
    tblCount (q :: l) tok = (if q.1 = tok then q.2 else 0) + tblCount l tok := by
  simp [tblCount]

theorem tblCount_bumpAssoc : ∀ (l : List (SentencePart × Nat)) (p tok : SentencePart),
    tblCount (bumpAssoc l p) tok = tblCount l tok + if p = tok then 1 else 0
  | [], p, tok => by
    by_cases h : p = tok <;> simp [bumpAssoc, tblCount, h]
  | (q, c) :: rest, p, tok => by
    by_cases hq : q = p
    · subst hq
      by_cases h : q = tok <;> simp [bumpAssoc, tblCount_cons, h] <;> omega
    · simp only [bumpAssoc, if_neg hq, tblCount_cons, tblCount_bumpAssoc rest p tok]
      omega

theorem memCount_cons (e : SentencePartPair × NextPartList)
    (rest : List (SentencePartPair × NextPartList)) (pr : SentencePartPair)
    (tok : SentencePart) :
    memCount ⟨e :: rest⟩ pr tok =
      (if e.1 = pr then tblCount e.2.parts tok else 0) + memCount ⟨rest⟩ pr tok := by
  simp [memCount]

theorem memCount_bumpMem : ∀ (w : List (SentencePartPair × NextPartList))
    (pr : SentencePartPair) (tok : SentencePart) (pr' : SentencePartPair)
    (tok' : SentencePart),
    memCount ⟨bumpMem w pr tok⟩ pr' tok' =
      memCount ⟨w⟩ pr' tok' + if pr = pr' ∧ tok = tok' then 1 else 0
  | [], pr, tok, pr', tok' => by
    by_cases h1 : pr = pr' <;> by_cases h2 : tok = tok' <;>
      simp [bumpMem, NextPartList.count_part, bumpAssoc, memCount, tblCount, h1, h2]
  | (q, tbl) :: rest, pr, tok, pr', tok' => by
    by_cases hq : q = pr
    · subst hq
      by_cases h1 : q = pr' <;> by_cases h2 : tok = tok' <;>
        simp [bumpMem, memCount_cons, NextPartList.count_part, tblCount_bumpAssoc,
          h1, h2] <;> omega
    · simp only [bumpMem, if_neg hq, memCount_cons,
        memCount_bumpMem rest pr tok pr' tok']
      omega

theorem keysOf_bumpMem : ∀ (w : List (SentencePartPair × NextPartList))
    (pr : SentencePartPair) (tok : SentencePart) (q : SentencePartPair),
    q ∈ keysOf ⟨bumpMem w pr tok⟩ ↔ q ∈ keysOf ⟨w⟩ ∨ q = pr
  | [], pr, tok, q => by simp [bumpMem, keysOf]
  | (p, tbl) :: rest, pr, tok, q => by
    by_cases hq : p = pr
    · subst hq
      simp [bumpMem, keysOf]
      try tauto
    · have ih := keysOf_bumpMem rest pr tok q
      simp only [keysOf] at ih
      simp only [bumpMem, if_neg hq, keysOf, List.map_cons, List.mem_cons, ih]
      tauto

theorem memCount_learnWords : ∀ (ws : List String) (m : Memory) (pp : SentencePartPair)
    (pr : SentencePartPair) (tok : SentencePart),
    memCount (learnWords m pp ws) pr tok =
      memCount m pr tok + countOcc (effTransitions pp ws) (pr, tok)
  | [], m, pp, pr, tok => by
    by_cases hv : pp.is_valid_sentence
    · simp only [learnWords, effTransitions, if_pos hv]
      rcases m with ⟨w⟩
      rw [memCount_bumpMem]
      by_cases h : pp = pr ∧ SentencePart.endOfLine = tok <;>
        simp [countOcc_cons, countOcc_nil, Prod.ext_iff, h]
    · simp [learnWords, effTransitions, hv, countOcc_nil]
  | w :: ws, m, pp, pr, tok => by
    by_cases ht : (rustTrim w).isEmpty
    · simp only [learnWords, effTransitions, if_pos ht]
      exact memCount_learnWords ws m pp pr tok
    · by_cases hv : pp.is_valid_sentence
      · simp only [learnWords, effTransitions, if_neg ht, if_pos hv]
        rcases m with ⟨mw⟩
        rw [memCount_learnWords ws _ (pp.shift w) pr tok, memCount_bumpMem,
          List.singleton_append, countOcc_cons]
        by_cases h : pp = pr ∧ SentencePart.word w = tok <;>
          simp [Prod.ext_iff, h] <;> omega
      · simp only [learnWords, effTransitions, if_neg ht, if_neg hv,
          List.nil_append]
        exact memCount_learnWords ws m (pp.shift w) pr tok

theorem keysOf_learnWords : ∀ (ws : List String) (m : Memory) (pp : SentencePartPair)
    (q : SentencePartPair),
    q ∈ keysOf (learnWords m pp ws) ↔
      q ∈ keysOf m ∨ q ∈ (effTransitions pp ws).map Prod.fst
  | [], m, pp, q => by
    by_cases hv : pp.is_valid_sentence
    · rcases m with ⟨w⟩
      simp only [learnWords, effTransitions, if_pos hv, keysOf_bumpMem, List.map_cons,
        List.map_nil, List.mem_cons]
      tauto
    · simp [learnWords, effTransitions, hv]
  | w :: ws, m, pp, q => by
    by_cases ht : (rustTrim w).isEmpty
    · simp only [learnWords, effTransitions, if_pos ht]
      exact keysOf_learnWords ws m pp q
    · by_cases hv : pp.is_valid_sentence
      · rcases m with ⟨mw⟩
        simp only [learnWords, effTransitions, if_neg ht, if_pos hv,
          keysOf_learnWords ws _ (pp.shift w) q, keysOf_bumpMem,
          List.singleton_append, List.map_cons, List.mem_cons]
        tauto
      · simp only [learnWords, effTransitions, if_neg ht, if_neg hv, List.nil_append]
        exact keysOf_learnWords ws m (pp.shift w) q

theorem effTransitions_eq_claimedList : ∀ (ws : List String) (s : String)
    (q : SentencePart),
    (∀ w ∈ ws, (rustTrim w).isEmpty = false) →
    effTransitions ⟨SentencePart.word s, q⟩ ws = claimedList (SentencePart.word s) q ws
  | [], s, q, _ => by
    simp [effTransitions, claimedList, SentencePartPair.is_valid_sentence,
      SentencePart.is_word]
  | w :: ws, s, q, hw => by
    have hw0 : (rustTrim w).isEmpty = false := hw w (List.mem_cons_self w ws)
    have hrest : ∀ w' ∈ ws, (rustTrim w').isEmpty = false :=
      fun w' h => hw w' (List.mem_cons_of_mem w h)
    simp [effTransitions, claimedList, SentencePartPair.is_valid_sentence,
      SentencePart.is_word, SentencePartPair.shift, hw0,
      effTransitions_eq_claimedList ws w (SentencePart.word s) hrest]

theorem claimedList_length : ∀ (ws : List String) (p q : SentencePart),
    (claimedList p q ws).length = ws.length + 1
  | [], p, q => rfl
  | w :: ws, p, q => by
    simp [claimedList, claimedList_length ws]

theorem claimedList_no_start_key : ∀ (ws : List String) (s : String) (q : SentencePart)
    (tok : SentencePart),
    countOcc (claimedList (SentencePart.word s) q ws) (SentencePartPair.start, tok) = 0
  | [], s, q, tok => by
    simp [claimedList, countOcc_cons, countOcc_nil, Prod.ext_iff, SentencePartPair.start]
  | w :: ws, s, q, tok => by
    rw [claimedList, countOcc_cons, claimedList_no_start_key ws w (SentencePart.word s) tok]
    simp [Prod.ext_iff, SentencePartPair.start]

theorem start_not_valid : SentencePartPair.start.is_valid_sentence = false := rfl

theorem learn_memCount (m : Memory) (line : String)
    (hw : ∀ w ∈ splitAsciiWhitespace line, (rustTrim w).isEmpty = false)
    (pr : SentencePartPair) (tok : SentencePart) :
    memCount (m.learn line) pr tok =
      memCount m pr tok + countOcc (claimedTransitions (splitAsciiWhitespace line)) (pr, tok) := by
  unfold Memory.learn
  rcases hsplit : splitAsciiWhitespace line with _ | ⟨w1, rest⟩
  · simp [learnWords, start_not_valid, claimedTransitions, countOcc_nil]
  · rw [hsplit] at hw
    have hw1 : (rustTrim w1).isEmpty = false := hw w1 (List.mem_cons_self w1 rest)
    have hrest : ∀ w' ∈ rest, (rustTrim w').isEmpty = false :=
      fun w' h => hw w' (List.mem_cons_of_mem w1 h)
    simp only [learnWords, hw1, Bool.false_eq_true, if_false, start_not_valid,
      claimedTransitions]
    rw [memCount_learnWords rest m (SentencePartPair.start.shift w1) pr tok]
    have hsh : SentencePartPair.start.shift w1 =
        ⟨SentencePart.word w1, SentencePart.startOfLine⟩ := rfl
    rw [hsh, effTransitions_eq_claimedList rest w1 SentencePart.startOfLine hrest]

/-- C1 (amended: lines none of whose ASCII-whitespace-split words consist
entirely of Unicode whitespace). For such a line with words `w1..wn`, `n ≥ 1`,
`learn` records exactly `n` transitions: each `wi` (`i ≥ 2`) is counted once
under the context `(Word w(i-1), Word w(i-2))` (`StartOfLine` in the second
slot when `i = 2`), `EndOfLine` is counted once under the final context, no
other count moves, the context `(StartOfLine, StartOfLine)` never receives a
transition, and a line with no words leaves the model unchanged. -/
theorem c1_learn_records_exactly_the_claimed_transitions (m : Memory) (line : String)
    (hw : ∀ w ∈ splitAsciiWhitespace line, (rustTrim w).isEmpty = false) :
    (splitAsciiWhitespace line = [] → m.learn line = m) ∧
    (splitAsciiWhitespace line ≠ [] →
      (claimedTransitions (splitAsciiWhitespace line)).length =
        (splitAsciiWhitespace line).length) ∧
    (∀ pr tok, memCount (m.learn line) pr tok =
      memCount m pr tok +
        countOcc (claimedTransitions (splitAsciiWhitespace line)) (pr, tok)) ∧
    (∀ tok, memCount (m.learn line) SentencePartPair.start tok =
      memCount m SentencePartPair.start tok) := by
  refine ⟨?_, ?_, learn_memCount m line hw, ?_⟩
  · intro h
    unfold Memory.learn
    rw [h]
    simp [learnWords, start_not_valid]
  · intro hne
    rcases hsplit : splitAsciiWhitespace line with _ | ⟨w1, rest⟩
    · exact absurd hsplit hne
    · simp [claimedTransitions, claimedList_length]
  · intro tok
    rw [learn_memCount m line hw]
    rcases hsplit : splitAsciiWhitespace line with _ | ⟨w1, rest⟩
    · simp [claimedTransitions, countOcc_nil]
    · simp [claimedTransitions, claimedList_no_start_key]

theorem c1_witness :
    (∀ w ∈ splitAsciiWhitespace "hi there", (rustTrim w).isEmpty = false) ∧
    memCount (Memory.default.learn "hi there")
        (SentencePartPair.with_previous_word "hi") (SentencePart.word "there") =
      memCount Memory.default
          (SentencePartPair.with_previous_word "hi") (SentencePart.word "there") +
        countOcc (claimedTransitions (splitAsciiWhitespace "hi there"))
          (SentencePartPair.with_previous_word "hi", SentencePart.word "there") :=
  ⟨by decide,
    (c1_learn_records_exactly_the_claimed_transitions Memory.default "hi there"
          (by decide)).2.2.1
      (SentencePartPair.with_previous_word "hi") (SentencePart.word "there")⟩

/-- C1 counterexample: the line consisting of the single non-breaking space
`U+00A0` splits on ASCII whitespace into one word, yet `learn` records no
transition at all (the `part.trim().is_empty()` guard skips the word, since
Rust's `trim` strips Unicode whitespace): the model stays empty instead of
receiving the `(Word w1, StartOfLine) → EndOfLine` transition the claim
demands. -/
theorem c1_counterexample :
    splitAsciiWhitespace "\u00A0" = ["\u00A0"] ∧
    Memory.learn Memory.default "\u00A0" = Memory.default ∧
    memCount (Memory.learn Memory.default "\u00A0")
      (SentencePartPair.with_previous_word "\u00A0") SentencePart.endOfLine = 0 := by
  refine ⟨by decide, by decide, by decide⟩

/-- C2: `Memory::learn` does NOT case-fold words. After `learn("The cat sat")`
on an empty model the learned context key is `(Word "The", StartOfLine)`
verbatim, and the context `(Word "the", StartOfLine)` the claim (and the spec)
describes holds nothing. `Memory::speak` lowercases its starting word before
lookup, and the parallel implementation in `src/main.rs` lowercases every
learned word, so the stored-lowercase behaviour is clearly the intent and the
missing `to_ascii_lowercase` in `Memory::learn` a slip. -/
theorem c2_learn_does_not_lowercase :
    memCount (Memory.learn Memory.default "The cat sat")
      (SentencePartPair.with_previous_word "the") (SentencePart.word "cat") = 0 ∧
    memCount (Memory.learn Memory.default "The cat sat")
      (SentencePartPair.with_previous_word "The") (SentencePart.word "cat") = 1 := by
  refine ⟨by decide, by decide⟩

theorem learn_memCount_total (m : Memory) (line : String)
    (pr : SentencePartPair) (tok : SentencePart) :
    memCount (m.learn line) pr tok =
      memCount m pr tok +
        countOcc (effTransitions SentencePartPair.start (splitAsciiWhitespace line))
          (pr, tok) :=
  memCount_learnWords (splitAsciiWhitespace line) m SentencePartPair.start pr tok

theorem learn_keysOf (m : Memory) (line : String) (q : SentencePartPair) :
    q ∈ keysOf (m.learn line) ↔
      q ∈ keysOf m ∨
        q ∈ (effTransitions SentencePartPair.start (splitAsciiWhitespace line)).map
          Prod.fst :=
  keysOf_learnWords (splitAsciiWhitespace line) m SentencePartPair.start q

/-- C6: learning the same line twice is additive in weight and idempotent in
shape. The second `learn` adds exactly the same per-pair delta as the first
(`count₂ + count₀ = 2·count₁` for every context/continuation pair, so every
count touched by the line doubles and untouched counts stay put), and the set
of context keys after two calls equals the set after one. -/
theorem c6_learn_twice_doubles (m : Memory) (line : String) :
    (∀ pr, pr ∈ keysOf ((m.learn line).learn line) ↔ pr ∈ keysOf (m.learn line)) ∧
    (∀ pr tok,
      memCount ((m.learn line).learn line) pr tok + memCount m pr tok =
        2 * memCount (m.learn line) pr tok) := by
  constructor
  · intro pr
    rw [learn_keysOf, learn_keysOf]
    tauto
  · intro pr tok
    rw [learn_memCount_total (m.learn line) line, learn_memCount_total m line]
    omega

theorem bumpAssoc_allPos : ∀ (l : List (SentencePart × Nat)) (p : SentencePart),
    (∀ q ∈ l, 1 ≤ q.2) → ∀ q' ∈ bumpAssoc l p, 1 ≤ q'.2
  | [], p, _ => by simp [bumpAssoc]
  | (q, c) :: rest, p, h => by
    rw [List.forall_mem_cons] at h
    by_cases hq : q = p
    · simp only [bumpAssoc, if_pos hq, List.forall_mem_cons]
      exact ⟨by omega, h.2⟩
    · simp only [bumpAssoc, if_neg hq, List.forall_mem_cons]
      exact ⟨h.1, bumpAssoc_allPos rest p h.2⟩

theorem bumpAssoc_no_start : ∀ (l : List (SentencePart × Nat)) (p : SentencePart),
    p ≠ SentencePart.startOfLine → (∀ q ∈ l, q.1 ≠ SentencePart.startOfLine) →
    ∀ q' ∈ bumpAssoc l p, q'.1 ≠ SentencePart.startOfLine
  | [], p, hp, _ => by simp [bumpAssoc]; exact hp
  | (q, c) :: rest, p, hp, h => by
    rw [List.forall_mem_cons] at h
    by_cases hq : q = p
    · simp only [bumpAssoc, if_pos hq, List.forall_mem_cons]
      exact ⟨h.1, h.2⟩
    · simp only [bumpAssoc, if_neg hq, List.forall_mem_cons]
      exact ⟨h.1, bumpAssoc_no_start rest p hp h.2⟩

theorem bumpMem_allPos : ∀ (w : List (SentencePartPair × NextPartList))
    (pr : SentencePartPair) (tok : SentencePart),
    (∀ e ∈ w, ∀ q ∈ e.2.parts, 1 ≤ q.2) →
    ∀ e ∈ bumpMem w pr tok, ∀ q ∈ e.2.parts, 1 ≤ q.2
  | [], pr, tok, _ => by simp [bumpMem, NextPartList.count_part, bumpAssoc]
  | (q, tbl) :: rest, pr, tok, h => by
    rw [List.forall_mem_cons] at h
    by_cases hq : q = pr
    · simp only [bumpMem, if_pos hq, List.forall_mem_cons]
      exact ⟨bumpAssoc_allPos tbl.parts tok h.1, h.2⟩
    · simp only [bumpMem, if_neg hq, List.forall_mem_cons]
      exact ⟨h.1, bumpMem_allPos rest pr tok h.2⟩

theorem bumpMem_wf : ∀ (w : List (SentencePartPair × NextPartList))
    (pr : SentencePartPair) (tok : SentencePart),
    pr.is_valid_sentence = true → tok ≠ SentencePart.startOfLine →
    (∀ e ∈ w, e.1.prev.is_word = true ∧ ∀ q ∈ e.2.parts, q.1 ≠ SentencePart.startOfLine) →
    ∀ e ∈ bumpMem w pr tok,
      e.1.prev.is_word = true ∧ ∀ q ∈ e.2.parts, q.1 ≠ SentencePart.startOfLine
  | [], pr, tok, hpr, htok, _ => by
    simp [bumpMem, NextPartList.count_part, bumpAssoc]
    exact ⟨hpr, htok⟩
  | (q, tbl) :: rest, pr, tok, hpr, htok, h => by
    rw [List.forall_mem_cons] at h
    by_cases hq : q = pr
    · simp only [bumpMem, if_pos hq, List.forall_mem_cons]
      exact ⟨⟨h.1.1, bumpAssoc_no_start tbl.parts tok htok h.1.2⟩, h.2⟩
    · simp only [bumpMem, if_neg hq, List.forall_mem_cons]
      exact ⟨h.1, bumpMem_wf rest pr tok hpr htok h.2⟩

theorem learnWords_allPos : ∀ (ws : List String) (m : Memory) (pp : SentencePartPair),
    (∀ e ∈ m.words, ∀ q ∈ e.2.parts, 1 ≤ q.2) →
    ∀ e ∈ (learnWords m pp ws).words, ∀ q ∈ e.2.parts, 1 ≤ q.2
  | [], m, pp, h => by
    by_cases hv : pp.is_valid_sentence
    · simp only [learnWords, if_pos hv]
      exact bumpMem_allPos m.words pp SentencePart.endOfLine h
    · simpa only [learnWords, if_neg hv] using h
  | w :: ws, m, pp, h => by
    by_cases ht : (rustTrim w).isEmpty
    · simp only [learnWords, if_pos ht]
      exact learnWords_allPos ws m pp h
    · by_cases hv : pp.is_valid_sentence
      · simp only [learnWords, if_neg ht, if_pos hv]
        exact learnWords_allPos ws _ (pp.shift w)
          (bumpMem_allPos m.words pp (SentencePart.word w) h)
      · simp only [learnWords, if_neg ht, if_neg hv]
        exact learnWords_allPos ws m (pp.shift w) h

theorem learnWords_wf : ∀ (ws : List String) (m : Memory) (pp : SentencePartPair),
    (∀ e ∈ m.words,
      e.1.prev.is_word = true ∧ ∀ q ∈ e.2.parts, q.1 ≠ SentencePart.startOfLine) →
    ∀ e ∈ (learnWords m pp ws).words,
      e.1.prev.is_word = true ∧ ∀ q ∈ e.2.parts, q.1 ≠ SentencePart.startOfLine
  | [], m, pp, h => by
    by_cases hv : pp.is_valid_sentence
    · simp only [learnWords, if_pos hv]
      exact bumpMem_wf m.words pp SentencePart.endOfLine hv (by simp) h
    · simpa only [learnWords, if_neg hv] using h
  | w :: ws, m, pp, h => by
    by_cases ht : (rustTrim w).isEmpty
    · simp only [learnWords, if_pos ht]
      exact learnWords_wf ws m pp h
    · by_cases hv : pp.is_valid_sentence
      · simp only [learnWords, if_neg ht, if_pos hv]
        exact learnWords_wf ws _ (pp.shift w)
          (bumpMem_wf m.words pp (SentencePart.word w) hv (by simp) h)
      · simp only [learnWords, if_neg ht, if_neg hv]
        exact learnWords_wf ws m (pp.shift w) h

theorem foldl_learn_allPos : ∀ (lines : List String) (m : Memory),
    (∀ e ∈ m.words, ∀ q ∈ e.2.parts, 1 ≤ q.2) →
    ∀ e ∈ (lines.foldl Memory.learn m).words, ∀ q ∈ e.2.parts, 1 ≤ q.2
  | [], m, h => h
  | line :: lines, m, h =>
    foldl_learn_allPos lines (m.learn line)
      (learnWords_allPos (splitAsciiWhitespace line) m SentencePartPair.start h)

theorem foldl_learn_wf : ∀ (lines : List String) (m : Memory),
    (∀ e ∈ m.words,
      e.1.prev.is_word = true ∧ ∀ q ∈ e.2.parts, q.1 ≠ SentencePart.startOfLine) →
    ∀ e ∈ (lines.foldl Memory.learn m).words,
      e.1.prev.is_word = true ∧ ∀ q ∈ e.2.parts, q.1 ≠ SentencePart.startOfLine
  | [], m, h => h
  | line :: lines, m, h =>
    foldl_learn_wf lines (m.learn line)
      (learnWords_wf (splitAsciiWhitespace line) m SentencePartPair.start h)

/-- C9: every model reached from `default()` by `learn` calls stores only
counts ≥ 1; each `learn` call only adds (never removes a context key, never
decreases any count); and the primitive table update inserts at count 1 or
increments an existing count by exactly 1. -/
theorem c9_counts_positive_and_monotonic :
    (∀ lines : List String, allCountsPos (lines.foldl Memory.learn Memory.default) = true) ∧
    (∀ (m : Memory) (line : String) (pr : SentencePartPair) (tok : SentencePart),
      memCount m pr tok ≤ memCount (m.learn line) pr tok) ∧
    (∀ (m : Memory) (line : String) (pr : SentencePartPair),
      pr ∈ keysOf m → pr ∈ keysOf (m.learn line)) ∧
    (∀ (l : List (SentencePart × Nat)) (p tok : SentencePart),
      tblCount (bumpAssoc l p) tok = tblCount l tok + if p = tok then 1 else 0) := by
  refine ⟨?_, ?_, ?_, tblCount_bumpAssoc⟩
  · intro lines
    simp only [allCountsPos, List.all_eq_true, Bool.and_eq_true, decide_eq_true_eq]
    intro e he
    exact foldl_learn_allPos lines Memory.default (by simp [Memory.default]) e he
  · intro m line pr tok
    rw [learn_memCount_total m line pr tok]
    omega
  · intro m line pr h
    rw [learn_keysOf]
    exact Or.inl h

theorem c9_witness :
    SentencePartPair.with_previous_word "hi" ∈ keysOf (Memory.default.learn "hi") ∧
    SentencePartPair.with_previous_word "hi" ∈
      keysOf ((Memory.default.learn "hi").learn "yo") :=
  ⟨by decide,
    c9_counts_positive_and_monotonic.2.2.1 (Memory.default.learn "hi") "yo"
      (SentencePartPair.with_previous_word "hi") (by decide)⟩

/-- C10: every model reached from `default()` by `learn` calls is well formed:
each stored context key has a `Word` in its `prev` slot (`is_valid_sentence`),
and no `ContinuationTable` stores `StartOfLine` as a continuation. -/
theorem c10_reachable_models_well_formed (lines : List String) :
    wellFormed (lines.foldl Memory.learn Memory.default) = true := by
  simp only [wellFormed, List.all_eq_true, Bool.and_eq_true, decide_eq_true_eq]
  intro e he
  have h := foldl_learn_wf lines Memory.default (by simp [Memory.default]) e he
  exact ⟨h.1, h.2⟩

theorem scanSelect_lt (l : List (SentencePart × Nat)) (w : SentencePart) (c : Nat)
    (i : Nat) (h : i < c) : scanSelect ((w, c) :: l) i = some w := by
  simp [scanSelect, h]

theorem scanSelect_shift (l : List (SentencePart × Nat)) (w : SentencePart) (c : Nat)
    (i : Nat) : scanSelect ((w, c) :: l) (c + i) = scanSelect l i := by
  have h : ¬(c + i < c) := by omega
  simp [scanSelect, h]

theorem scanSelect_countP : ∀ (l : List (SentencePart × Nat)) (t : SentencePart),
    (List.range ((l.map Prod.snd).sum)).countP
      (fun i => decide (scanSelect l i = some t)) = tblCount l t
  | [], t => by simp [scanSelect, tblCount]
  | (w, c) :: rest, t => by
    have hsplit : List.range (c + (rest.map Prod.snd).sum) =
        List.range c ++ (List.range ((rest.map Prod.snd).sum)).map (c + ·) := by
      rw [List.range_eq_range', Nat.add_comm c, ← List.range'_append_1 0 c]
      simp [List.range'_eq_map_range]
    simp only [List.map_cons, List.sum_cons, hsplit, List.countP_append, List.countP_map]
    have h1 : (List.range c).countP
        (fun i => decide (scanSelect ((w, c) :: rest) i = some t)) =
        if w = t then c else 0 := by
      by_cases hw : w = t
      · subst hw
        rw [if_pos rfl]
        have hall : ∀ i ∈ List.range c,
            (fun i => decide (scanSelect ((w, c) :: rest) i = some w)) i = true := by
          intro i hi
          rw [List.mem_range] at hi
          simp [scanSelect_lt rest w c i hi]
        rw [List.countP_eq_length.mpr hall, List.length_range]
      · rw [if_neg hw, List.countP_eq_zero]
        intro i hi
        rw [List.mem_range] at hi
        simp [scanSelect_lt rest w c i hi, hw]
    have h2 : (List.range ((rest.map Prod.snd).sum)).countP
        ((fun i => decide (scanSelect ((w, c) :: rest) i = some t)) ∘ (c + ·)) =
        tblCount rest t := by
      rw [← scanSelect_countP rest t]
      apply List.countP_congr
      intro i _
      simp [Function.comp, scanSelect_shift]
    rw [h1, h2, tblCount_cons]

theorem scanSelect_total_some : ∀ (l : List (SentencePart × Nat)) (idx : Nat),
    idx < (l.map Prod.snd).sum → ∃ p, scanSelect l idx = some p
  | [], idx, h => by simp at h
  | (w, c) :: rest, idx, h => by
    by_cases hc : idx < c
    · exact ⟨w, scanSelect_lt rest w c idx hc⟩
    · simp only [List.map_cons, List.sum_cons] at h
      have h' : idx - c < (rest.map Prod.snd).sum := by omega
      obtain ⟨p, hp⟩ := scanSelect_total_some rest (idx - c) h'
      exact ⟨p, by simp [scanSelect, hc, hp]⟩

/-- C3: the cumulative-subtraction scan of `NextPartList::get` selects token
`t` for exactly `count(t)` of the `total` possible drawn indices, whatever
order the table's entries are enumerated in, and both the total and the
per-token count are invariant under reordering — hence the probability of
selecting `t` under a uniform draw is exactly `count(t) / total` regardless of
the map's iteration order. -/
theorem c3_weighted_sampling_exact (l l' : List (SentencePart × Nat))
    (t : SentencePart) (hne : l ≠ []) (hp : l.Perm l') :
    ((List.range (NextPartList.total ⟨l⟩)).countP
        (fun i => decide (NextPartList.get ⟨l⟩ i = some t)) = tblCount l t) ∧
    NextPartList.total ⟨l⟩ = NextPartList.total ⟨l'⟩ ∧
    tblCount l t = tblCount l' t := by
  refine ⟨?_, ?_, ?_⟩
  · have hememp : (⟨l⟩ : NextPartList).parts.isEmpty = false := by
      cases l with
      | nil => exact absurd rfl hne
      | cons a rest => rfl
    have : ∀ i, NextPartList.get ⟨l⟩ i = scanSelect l i := by
      intro i
      simp [NextPartList.get, hememp]
    simp only [this]
    exact scanSelect_countP l t
  · exact (hp.map Prod.snd).sum_eq
  · exact (hp.map fun q => if q.1 = t then q.2 else 0).sum_eq

theorem c3_witness :
    ([(SentencePart.word "a", 9), (SentencePart.word "b", 1)] ≠
        ([] : List (SentencePart × Nat))) ∧
    ((List.range
          (NextPartList.total ⟨[(SentencePart.word "a", 9), (SentencePart.word "b", 1)]⟩)).countP
        (fun i =>
          decide
            (NextPartList.get ⟨[(SentencePart.word "a", 9), (SentencePart.word "b", 1)]⟩ i =
              some (SentencePart.word "a"))) =
      tblCount [(SentencePart.word "a", 9), (SentencePart.word "b", 1)]
        (SentencePart.word "a")) :=
  ⟨by decide,
    (c3_weighted_sampling_exact
        [(SentencePart.word "a", 9), (SentencePart.word "b", 1)]
        [(SentencePart.word "b", 1), (SentencePart.word "a", 9)]
        (SentencePart.word "a") (by decide)
        (List.Perm.swap (SentencePart.word "b", 1) (SentencePart.word "a", 9) [])).1⟩

/-- C8: `NextPartList::get` returns `None` exactly on the empty table — on an
empty table it returns `None`, and on any table, for every drawn index below
the total, the scan selects some entry before falling off the end, so the
trailing `None` is unreachable and the function returns `Some`. -/
theorem c8_get_none_iff_empty (l : List (SentencePart × Nat)) (idx : Nat) :
    NextPartList.get ⟨[]⟩ idx = none ∧
    (idx < NextPartList.total ⟨l⟩ → ∃ p, NextPartList.get ⟨l⟩ idx = some p) := by
  constructor
  · rfl
  · intro h
    cases l with
    | nil => simp [NextPartList.total] at h
    | cons a rest =>
      obtain ⟨p, hp⟩ := scanSelect_total_some (a :: rest) idx h
      exact ⟨p, by simpa [NextPartList.get] using hp⟩

theorem c8_witness :
    (0 < NextPartList.total ⟨[(SentencePart.word "a", 1)]⟩) ∧
    ∃ p, NextPartList.get ⟨[(SentencePart.word "a", 1)]⟩ 0 = some p :=
  ⟨by decide, (c8_get_none_iff_empty [(SentencePart.word "a", 1)] 0).2 (by decide)⟩

theorem speakLoop_length_le : ∀ (k : Nat) (m : Memory) (rng : Nat → Nat) (pos : Nat)
    (pp : SentencePartPair) (len : Nat) (acc : List String),
    30 - len ≤ k → len ≤ 29 →
    (speakLoop m rng pos pp len acc).length ≤ acc.length + (30 - len)
  | 0, m, rng, pos, pp, len, acc, hk, hlen => absurd hk (by omega)
  | k + 1, m, rng, pos, pp, len, acc, hk, hlen => by
    rw [speakLoop.eq_def]
    split
    · omega
    · split
      · omega
      · omega
      · omega
      · split
        · simp only [List.length_append, List.length_cons, List.length_nil]
          omega
        · rename_i tbl w hget hbreak
          have hb : chanceToBreak (len + 1) ≤ rng (pos + 1) % 100 := by omega
          have hmod : rng (pos + 1) % 100 < 100 := Nat.mod_lt _ (by omega)
          have hlen1 : len + 1 ≤ 29 := by
            simp only [chanceToBreak] at hb
            omega
          have ih := speakLoop_length_le k m rng (pos + 2) (pp.shift w) (len + 1)
            (acc ++ [w]) (by omega) hlen1
          simp only [List.length_append, List.length_cons, List.length_nil] at ih ⊢
          omega

/-- C4: the generation loop of `Memory::speak` breaks when the uniform draw in
`[0, 100)` falls below `(len / 3) * 10` (integer division); that chance
reaches 100 at the 30th produced word, where the break is certain, so for
every model and every stream of random draws the loop terminates (the
recursion in `speakLoop` is well founded for exactly this reason) and the
sentence contains at most 30 produced words after the starting word. -/
theorem c4_generate_at_most_30_words :
    (∀ (m : Memory) (rng : Nat → Nat) (w : String),
      (speakProduced m rng w).length ≤ 30) ∧
    chanceToBreak 30 = 100 := by
  refine ⟨?_, rfl⟩
  intro m rng w
  have h := speakLoop_length_le 30 m rng 0
    (SentencePartPair.with_previous_word (asciiLowercase w)) 0 [] (by omega) (by omega)
  simpa [speakProduced] using h

theorem speakLoop_stop_none (m : Memory) (rng : Nat → Nat) (pos : Nat)
    (pp : SentencePartPair) (len : Nat) (acc : List String)
    (h : m.find pp = none) : speakLoop m rng pos pp len acc = acc := by
  rw [speakLoop.eq_def, h]

theorem speakLoop_stop_end (m : Memory) (rng : Nat → Nat) (pos : Nat)
    (pp : SentencePartPair) (len : Nat) (acc : List String) (tbl : NextPartList)
    (h1 : m.find pp = some tbl)
    (h2 : tbl.get (rng pos % tbl.total) = some SentencePart.endOfLine) :
    speakLoop m rng pos pp len acc = acc := by
  rw [speakLoop.eq_def, h1]
  simp only [h2]

theorem speakLoop_produce (m : Memory) (rng : Nat → Nat) (pos : Nat)
    (pp : SentencePartPair) (len : Nat) (acc : List String) (tbl : NextPartList)
    (w : String) (h1 : m.find pp = some tbl)
    (h2 : tbl.get (rng pos % tbl.total) = some (SentencePart.word w))
    (h3 : ¬ rng (pos + 1) % 100 < chanceToBreak (len + 1)) :
    speakLoop m rng pos pp len acc =
      speakLoop m rng (pos + 2) (pp.shift w) (len + 1) (acc ++ [w]) := by
  rw [speakLoop.eq_def, h1]
  simp only [h2, dif_neg h3]

theorem find_eq_none_of_not_in_contexts (m : Memory) (s : String)
    (h : wordInContexts m s = false) :
    m.find (SentencePartPair.with_previous_word s) = none := by
  unfold Memory.find
  have hf : m.words.find? (fun e => decide (e.1 = SentencePartPair.with_previous_word s)) =
      none := by
    rw [List.find?_eq_none]
    intro e he
    simp only [wordInContexts, List.any_eq_false, Bool.or_eq_true, decide_eq_true_eq,
      not_or] at h
    have he2 := (h e he).1
    simp only [decide_eq_true_eq]
    intro hcontra
    exact he2 (by rw [hcontra]; rfl)
  rw [hf]

/-- C7 (amended: the absent-result condition applies to the ASCII-lowercased
starting word). `generate` never fails: it returns an absent result exactly
when the sampling loop produced zero words, otherwise it returns the
lowercased starting word, a space, and the produced words space-separated;
and whenever the lowercased starting word occurs as a `Word` in no learned
context of the model, it returns an absent result. -/
theorem c7_generate_absent_iff_no_words (m : Memory) (rng : Nat → Nat) (w : String) :
    (m.speak rng w = none ↔ speakProduced m rng w = []) ∧
    (speakProduced m rng w ≠ [] →
      m.speak rng w =
        some (asciiLowercase w ++ " " ++ String.intercalate " " (speakProduced m rng w))) ∧
    (wordInContexts m (asciiLowercase w) = false → m.speak rng w = none) := by
  refine ⟨?_, ?_, ?_⟩
  · cases hp : speakProduced m rng w with
    | nil => simp [Memory.speak, hp]
    | cons a rest => simp [Memory.speak, hp]
  · intro hne
    cases hp : speakProduced m rng w with
    | nil => exact absurd hp hne
    | cons a rest => simp [Memory.speak, hp]
  · intro h
    have hf := find_eq_none_of_not_in_contexts m (asciiLowercase w) h
    have hp : speakProduced m rng w = [] :=
      speakLoop_stop_none m rng 0 (SentencePartPair.with_previous_word (asciiLowercase w))
        0 [] hf
    simp [Memory.speak, hp]

theorem c7_witness : Memory.speak Memory.default (fun _ => 0) "zzz" = none :=
  (c7_generate_absent_iff_no_words Memory.default (fun _ => 0) "zzz").2.2 (by decide)

/-- C7 counterexample: after learning only the lowercase line `"the cat"`,
the starting word `"The"` is never present as a `Word` token in any learned
context, yet `generate("The")` lowercases it before lookup and produces
`"the cat"` (for the all-zeros draw stream) instead of the absent result the
claim demands. -/
theorem c7_counterexample :
    wordInContexts (Memory.learn Memory.default "the cat") "The" = false ∧
    Memory.speak (Memory.learn Memory.default "the cat") (fun _ => 0) "The" =
      some "the cat" := by
  refine ⟨by decide, ?_⟩
  have h1 : speakLoop (Memory.learn Memory.default "the cat") (fun _ => 0) 0
      ⟨SentencePart.word "the", SentencePart.startOfLine⟩ 0 [] =
      speakLoop (Memory.learn Memory.default "the cat") (fun _ => 0) 2
        ⟨SentencePart.word "cat", SentencePart.word "the"⟩ 1 ["cat"] :=
    speakLoop_produce _ _ 0 _ 0 [] ⟨[(SentencePart.word "cat", 1)]⟩ "cat"
      (by decide) (by decide) (by decide)
  have h2 : speakLoop (Memory.learn Memory.default "the cat") (fun _ => 0) 2
      ⟨SentencePart.word "cat", SentencePart.word "the"⟩ 1 ["cat"] = ["cat"] :=
    speakLoop_stop_end _ _ 2 _ 1 ["cat"] ⟨[(SentencePart.endOfLine, 1)]⟩
      (by decide) (by decide)
  have hp : speakProduced (Memory.learn Memory.default "the cat") (fun _ => 0) "The" =
      ["cat"] := by
    have h0 : speakProduced (Memory.learn Memory.default "the cat") (fun _ => 0) "The" =
        speakLoop (Memory.learn Memory.default "the cat") (fun _ => 0) 0
          ⟨SentencePart.word "the", SentencePart.startOfLine⟩ 0 [] := rfl
    rw [h0, h1, h2]
  simp only [Memory.speak, hp]
  decide

theorem decPart_encPart : ∀ (p : SentencePart) (r : List Nat),
    decPart (encPart p ++ r) = some (p, r)
  | SentencePart.startOfLine, r => rfl
  | SentencePart.endOfLine, r => rfl
  | SentencePart.word s, r => by
    have hlen : (s.data.map Char.toNat).length = s.data.length := List.length_map _ _
    simp only [encPart, List.cons_append, decPart]
    rw [if_pos (by rw [List.length_append, hlen]; omega)]
    rw [List.take_left' hlen, List.drop_left' hlen]
    simp only [List.map_map]
    rw [show Char.ofNat ∘ Char.toNat = id from funext fun c => Char.ofNat_toNat c,
      List.map_id]

theorem decTableEntries_enc : ∀ (entries : List (SentencePart × Nat)) (r : List Nat),
    decTableEntries entries.length
      ((entries.map (fun q => encPart q.1 ++ [q.2])).flatten ++ r) = some (entries, r)
  | [], r => rfl
  | (p, c) :: rest, r => by
    simp only [List.map_cons, List.flatten_cons, List.length_cons, List.append_assoc,
      List.cons_append, List.singleton_append]
    simp only [decTableEntries, decPart_encPart, List.nil_append,
      decTableEntries_enc rest r]

theorem decTable_encTable (tbl : NextPartList) (r : List Nat) :
    decTable (encTable tbl ++ r) = some (tbl, r) := by
  simp only [encTable, List.cons_append, decTable, decTableEntries_enc tbl.parts r]

theorem decPair_encPair (pp : SentencePartPair) (r : List Nat) :
    decPair (encPair pp ++ r) = some (pp, r) := by
  simp only [encPair, List.append_assoc, decPair, decPart_encPart]

theorem decMemEntries_enc : ∀ (entries : List (SentencePartPair × NextPartList))
    (r : List Nat),
    decMemEntries entries.length
      ((entries.map (fun e => encPair e.1 ++ encTable e.2)).flatten ++ r) =
      some (entries, r)
  | [], r => rfl
  | (pr, tbl) :: rest, r => by
    simp only [List.map_cons, List.flatten_cons, List.length_cons, List.append_assoc]
    simp only [decMemEntries, decPair_encPair, decTable_encTable, List.nil_append,
      decMemEntries_enc rest r]

/-- C5: the persistence codec round-trips: decoding the encoded form of any
model succeeds and returns a model with exactly the same mapping — every
context with its exact continuation counts, and nothing else. The encoding is
modelled from the spec (length-prefixed binary records written field by
field), since the concrete byte production is done by the external `bincode`
and `zip` crates. -/
theorem c5_save_load_roundtrip (m : Memory) : decMemory (encMemory m) = some m := by
  simp only [encMemory, decMemory]
  have h := decMemEntries_enc m.words []
  rw [List.append_nil] at h
  rw [h]
